import Mathlib

/-!
Verification development for the layered configuration engine of the
habitat supervisor (`components/sup/src/manager/service/config.rs`).

The TOML document model is embedded shallowly: `toml::Value` becomes the
inductive `Value`, and `toml::value::Table` (an ordered map from string
keys to values) becomes an association list with unique keys, where
`tableInsert` replaces the value of an existing key in place and appends
a fresh key at the end.  All functions are executable.
-/

namespace Habitat

/-- Shallow embedding of `toml::Value`.  Float and datetime payloads are
carried as opaque strings: no operation in the engine inspects them. -/
inductive Value where
  | string : String → Value
  | integer : Int → Value
  | float : String → Value
  | boolean : Bool → Value
  | datetime : String → Value
  | array : List Value → Value
  | table : List (String × Value) → Value

/-- Embedding of `toml::value::Table`: an ordered association list. -/
abbrev Table := List (String × Value)

/-- Lookup in an association list (map `get`). -/
def assocGet {α : Type} (key : String) : List (String × α) → Option α
  | [] => none
  | (k, v) :: rest => if k = key then some v else assocGet key rest

/-- Insert into an association list (map `insert`): replace the value of
an existing key in place, append a fresh key at the end. -/
def assocInsert {α : Type} (key : String) (v : α) : List (String × α) → List (String × α)
  | [] => [(key, v)]
  | (k, w) :: rest =>
    if k = key then (k, v) :: rest else (k, w) :: assocInsert key v rest

/-- `toml::Value::as_table`. -/
def Value.as_table : Value → Option Table
  | Value.table t => some t
  | _ => none

/-- `toml::Value::is_table`. -/
def Value.is_table : Value → Bool
  | Value.table _ => true
  | _ => false

/-- `toml::Value::is_array`. -/
def Value.is_array : Value → Bool
  | Value.array _ => true
  | _ => false

/-- `toml::Value::get` with a string index: looks up a key in a table
value, `none` on any non-table value. -/
def Value.get (v : Value) (field : String) : Option Value :=
  match v with
  | Value.table t => assocGet field t
  | _ => none

/-- The supervisor error variants reachable from this module
(`error::Error`). -/
inductive SupError where
  | TomlParser : String → SupError
  | TomlMergeError : String → SupError
  | BadEnvConfig : String → SupError
  | TemplateFileError : String → SupError
  | RenderError : String → SupError
deriving DecidableEq

/-- `TOML_MAX_MERGE_DEPTH`. -/
def TOML_MAX_MERGE_DEPTH : Nat := 30

/-- The message of the depth-exceeded merge error (carries the bound). -/
def mergeDepthMsg : String := "Max recursive merge depth of 30 exceeded."

/-- `is_toml_value_a_table`. -/
def is_toml_value_a_table (key : String) (table : Table) : Bool :=
  match assocGet key table with
  | none => false
  | some value => (Value.as_table value).isSome

/-- `toml_merge_recurse`.  The Rust function mutates `me` in place and
returns `Result<()>`; the embedding returns the mutated table together
with the optional error, so that on failure the partially merged table
(mutations applied up to the point of failure) is retained, exactly as
the in-place mutation does.  The guarded `expect`/`should be a Table`
arms of the source are unreachable because the surrounding
`is_toml_value_a_table` tests have already matched; the embedding fuses
test and extraction into one `match`. -/
def toml_merge_recurse (me other : Table) (depth : Nat) : Table × Option SupError :=
  if TOML_MAX_MERGE_DEPTH < depth then
    (me, some (SupError.TomlMergeError mergeDepthMsg))
  else
    match other with
    | [] => (me, none)
    | (key, other_value) :: rest =>
      match assocGet key me, other_value with
      | some (Value.table me_at_key), Value.table other_table =>
        match toml_merge_recurse me_at_key other_table (depth + 1) with
        | (merged, some e) => (assocInsert key (Value.table merged) me, some e)
        | (merged, none) =>
          toml_merge_recurse (assocInsert key (Value.table merged) me) rest depth
      | _, _ => toml_merge_recurse (assocInsert key other_value me) rest depth
termination_by (sizeOf other, 0)

/-- `toml_merge`. -/
def toml_merge (me other : Table) : Table × Option SupError :=
  toml_merge_recurse me other 0

mutual

/-- Well-formedness of a value: every table reachable through nested
tables has unique keys (the invariant `BTreeMap` guarantees in the
source). -/
def valueWF : Value → Bool
  | Value.table t => tableWF t
  | _ => true

/-- Well-formedness of a table: keys unique at this level, all table
values well-formed recursively. -/
def tableWF : Table → Bool
  | [] => true
  | (key, v) :: rest =>
    !(rest.any (fun kv => kv.1 == key)) && valueWF v && tableWF rest

end

mutual

/-- Table-nesting depth of a value: 0 for non-tables, one more than the
deepest entry for a table. -/
def valueDepth : Value → Nat
  | Value.table t => 1 + tableDepth t
  | _ => 0

/-- Table-nesting depth of the deepest value of a table. -/
def tableDepth : Table → Nat
  | [] => 0
  | (_, v) :: rest => max (valueDepth v) (tableDepth rest)

end

/-- Length of the longest chain of nested tables shared (key by key) by
`me` and `other`: exactly the deepest recursion depth `toml_merge`
reaches when merging `other` into `me`. -/
def sharedDepth (me other : Table) : Nat :=
  match other with
  | [] => 0
  | (key, other_value) :: rest =>
    match assocGet key me, other_value with
    | some (Value.table me_at_key), Value.table other_table =>
      max (1 + sharedDepth me_at_key other_table) (sharedDepth me rest)
    | _, _ => sharedDepth me rest
termination_by sizeOf other

/-- A table is flat when none of its values is a table. -/
def flatTable (t : Table) : Bool :=
  t.all (fun kv => !(Value.is_table kv.2))

/-- A flat table with unique keys. -/
def flatUnique (t : Table) : Bool :=
  flatTable t && tableWF t

/-- The service config carried by a census group
(`ServiceConfig { incarnation, value }`). -/
structure ServiceCfg where
  incarnation : Nat
  value : Value

/-- The census-group view consumed by `Cfg::update`: an optional
service-config entry. -/
structure CensusGroup where
  service_config : Option ServiceCfg

/-- `Cfg`: the four configuration layers plus the stored gossip
incarnation. -/
structure Cfg where
  default : Option Value
  user : Option Value
  gossip : Option Value
  environment : Option Value
  gossip_incarnation : Nat

/-- `Cfg::update`.  The Rust method mutates `self` and returns `bool`;
the embedding returns the new state together with the flag. -/
def Cfg.update (cfg : Cfg) (census_group : CensusGroup) : Cfg × Bool :=
  match census_group.service_config with
  | some config =>
    if config.incarnation ≤ cfg.gossip_incarnation then
      (cfg, false)
    else
      ({ cfg with gossip_incarnation := config.incarnation,
                  gossip := some config.value }, true)
  | none => (cfg, false)

/-- One `if let Some(toml::Value::Table(..)) = layer { toml_merge(..) }`
block of `Cfg::serialize`.  A merge error is logged (collected in the
second component) and otherwise discarded; the table keeps the
mutations applied before the failure. -/
def mergeLayerStep (acc : Table × List SupError) (layer : Option Value) : Table × List SupError :=
  match layer with
  | some (Value.table cfgTable) =>
    match toml_merge acc.1 cfgTable with
    | (t, some e) => (t, acc.2 ++ [e])
    | (t, none) => (t, acc.2)
  | _ => acc

/-- The merge phase of `Cfg::serialize`: build an empty table, merge the
layers in order default, environment, user, gossip; collect the logged
errors. -/
def Cfg.serializeMergePhase (cfg : Cfg) : Table × List SupError :=
  mergeLayerStep
    (mergeLayerStep
      (mergeLayerStep
        (mergeLayerStep ([], []) cfg.default)
        cfg.environment)
      cfg.user)
    cfg.gossip

/-- The merged configuration view built by `Cfg::serialize`. -/
def Cfg.mergedTable (cfg : Cfg) : Table :=
  (Cfg.serializeMergePhase cfg).1

/-- The three-bucket reordering of the emission loop of
`Cfg::serialize`: non-array non-table values first, then arrays, then
tables, each bucket in table order. -/
def bucketize (t : Table) : List (String × Value) :=
  t.filter (fun kv => !(Value.is_array kv.2) && !(Value.is_table kv.2))
    ++ t.filter (fun kv => Value.is_array kv.2)
    ++ t.filter (fun kv => Value.is_table kv.2)

/-- The key/value emission sequence `Cfg::serialize` sends to the
serializer: the merged table, bucket-reordered at the top level only;
each value (nested tables included) is handed to `serialize_value`
verbatim. -/
def Cfg.serializeOut (cfg : Cfg) : List (String × Value) :=
  bucketize (Cfg.mergedTable cfg)

/-- Emission rank of a value: 0 scalar, 1 array, 2 table. -/
def classRank (v : Value) : Nat :=
  if Value.is_table v then 2 else if Value.is_array v then 1 else 0

/-- Whether a list of ranks is weakly increasing. -/
def ranksSortedB : List Nat → Bool
  | [] => true
  | [_] => true
  | x :: y :: rest => (x ≤ y : Bool) && ranksSortedB (y :: rest)

mutual

/-- The recursive bucket-ordering property the specification asserts of
the serialized output: within every (nested) table, scalar keys come
before array keys, which come before table keys. -/
def deepBucketedV : Value → Bool
  | Value.table t => ranksSortedB (t.map (fun kv => classRank kv.2)) && deepBucketedT t
  | _ => true

/-- `deepBucketedV` for each value of a table. -/
def deepBucketedT : Table → Bool
  | [] => true
  | (_, v) :: rest => deepBucketedV v && deepBucketedT rest

end

/-- The package descriptor fields this module consumes: the export
declarations (name, dotted path) and the per-service config output
directory. -/
structure Pkg where
  exports : List (String × String)
  svc_config_path : String

/-- `path.split(\'.\')` of the export loop: split a string at every
occurrence of the separator character, keeping empty pieces, so that
the result is never empty. -/
def splitCharAux (sep : Char) : List Char → List String
  | [] => [""]
  | c :: rest =>
    match splitCharAux sep rest with
    | [] => []
    | piece :: pieces =>
      if c = sep then "" :: piece :: pieces
      else String.mk (c :: piece.data) :: pieces

/-- Split a string at a separator character. -/
def splitChar (sep : Char) (s : String) : List String :=
  splitCharAux sep s.data

/-- One iteration of the inner `for field in fields` loop of
`Cfg::to_exported`: state is `(curr, found)`; on a hit advance `curr`
and set `found`, on a miss clear `found` but keep `curr`. -/
def fieldStep (st : Value × Bool) (field : String) : Value × Bool :=
  match Value.get st.1 field with
  | some val => (val, true)
  | none => (st.1, false)

/-- One iteration of the outer export loop of `Cfg::to_exported`. -/
def exportStep (cfgVal : Value) (map : Table) (kp : String × String) : Table :=
  let fields := splitChar '.' kp.2
  let st := fields.foldl fieldStep (cfgVal, false)
  if st.2 then assocInsert kp.1 st.1 map else map

/-- `Cfg::to_exported`.  `toml::Value::try_from(&self)` materialises the
`Serialize` output of `Cfg`, i.e. the bucket-reordered merged view. -/
def Cfg.to_exported (cfg : Cfg) (pkg : Pkg) : Except SupError Table :=
  Except.ok (pkg.exports.foldl (exportStep (Value.table (Cfg.serializeOut cfg))) [])

/-- The walk the export loop actually performs, as a direct recursion:
try each segment against the cursor, advancing only on success; the
pair is exported exactly when the final segment resolves, yielding the
value it resolves to. -/
def stickyResolve (v : Value) : List String → Option Value
  | [] => none
  | [f] => Value.get v f
  | f :: rest =>
    match Value.get v f with
    | some w => stickyResolve w rest
    | none => stickyResolve v rest

/-- Strict dotted-path resolution as the specification describes it:
every segment must resolve in sequence from the root. -/
def resolvePath (v : Value) : List String → Option Value
  | [] => some v
  | f :: rest =>
    match Value.get v f with
    | some w => resolvePath w rest
    | none => none

/-- The export map described by the sticky walk. -/
def exportedSpec (cfgVal : Value) (exports : List (String × String)) : Table :=
  exports.foldl
    (fun map kp =>
      match stickyResolve cfgVal (splitChar '.' kp.2) with
      | some v => assocInsert kp.1 v map
      | none => map)
    []

/-- The observable states of a layer file for `Cfg::load_toml_file`:
`File::open` failed (file absent or any other open error), the file
opened but `read_to_string` failed, or the file was read to a string. -/
inductive FileReadState where
  | absent
  | unreadable
  | content : String → FileReadState

/-- `Cfg::load_toml_file`, parameterised by the external TOML parser
(`toml::de::from_str`).  An open failure returns `Ok(None)`; a read
failure after opening is logged and also returns `Ok(None)`; only a
parse failure propagates, wrapped in `Error::TomlParser`. -/
def Cfg.load_toml_file (parse : String → Except String Table)
    (file : FileReadState) : Except SupError (Option Value) :=
  match file with
  | FileReadState.absent => Except.ok none
  | FileReadState.unreadable => Except.ok none
  | FileReadState.content s =>
    match parse s with
    | Except.ok t => Except.ok (some (Value.table t))
    | Except.error e => Except.error (SupError.TomlParser e)

/-- `Cfg::new`, over already-located layer files: load the default
layer, then the user layer, then the environment layer, each failure
propagating with `?`; the gossip layer starts empty at incarnation 0.
User-config directory resolution and environment-variable lookup are
abstracted into the `user_file` and `environment` arguments. -/
def Cfg.newFromFiles (parse : String → Except String Table)
    (default_file user_file : FileReadState)
    (environment : Except SupError (Option Value)) : Except SupError Cfg :=
  match Cfg.load_toml_file parse default_file with
  | Except.error e => Except.error e
  | Except.ok d =>
    match Cfg.load_toml_file parse user_file with
    | Except.error e => Except.error e
    | Except.ok u =>
      match environment with
      | Except.error e => Except.error e
      | Except.ok env =>
        Except.ok { default := d, user := u, gossip := none,
                    environment := env, gossip_incarnation := 0 }

/-- The context handed to the template engine; only passed through to
`render`, so its content is irrelevant here. -/
abbrev RenderContext := Table

/-- The template engine as this module sees it: the registered template
names (`get_templates`) and the black-box `render` entry point. -/
structure TemplateRenderer where
  templates : List String
  render : String → RenderContext → Except SupError String

/-- The on-disk state compile reads and writes: path to file contents. -/
abbrev FileSystem := List (String × String)

/-- Modelled from the spec: the hash provider's `hashText` (the code
calls `crypto::hash::hash_string`, implemented outside this
repository).  A digest of the text, never the empty string, equal
digests only for equal texts. -/
def hash_string (s : String) : String :=
  "blake2b-" ++ s

/-- Modelled from the spec: the hash provider's `hashFile` (the code
calls `crypto::hash::hash_file`): digest of the file's contents, or an
error when the file is absent or unreadable. -/
def hash_file (fs : FileSystem) (path : String) : Except Unit String :=
  match assocGet path fs with
  | some contents => Except.ok (hash_string contents)
  | none => Except.error ()

/-- `pkg.svc_config_path.join(template)`. -/
def cfgDest (pkg : Pkg) (template : String) : String :=
  pkg.svc_config_path ++ "/" ++ template

/-- The per-template loop of `CfgRenderer::compile`: render, hash the
rendered text, hash the destination file (empty digest when it cannot
be hashed), write on mismatch or missing destination (a full
truncate-then-write, `File::create` + `write_all`), skip when the
digests agree; `changed` accumulates the logical OR. -/
def compileLoop (render : String → RenderContext → Except SupError String)
    (pkg : Pkg) (ctx : RenderContext)
    (templates : List String) (fs : FileSystem) (changed : Bool) :
    Except SupError (FileSystem × Bool) :=
  match templates with
  | [] => Except.ok (fs, changed)
  | template :: rest =>
    match render template ctx with
    | Except.error e => Except.error e
    | Except.ok compiled =>
      let compiled_hash := hash_string compiled
      let cfg_dest := cfgDest pkg template
      let file_hash :=
        match hash_file fs cfg_dest with
        | Except.ok h => h
        | Except.error _ => ""
      if file_hash = "" then
        compileLoop render pkg ctx rest (assocInsert cfg_dest compiled fs) true
      else if file_hash = compiled_hash then
        compileLoop render pkg ctx rest fs changed
      else
        compileLoop render pkg ctx rest (assocInsert cfg_dest compiled fs) true

/-- `CfgRenderer::compile`. -/
def CfgRenderer.compile (r : TemplateRenderer) (pkg : Pkg) (ctx : RenderContext)
    (fs : FileSystem) : Except SupError (FileSystem × Bool) :=
  compileLoop r.render pkg ctx r.templates fs false

/-- One directory entry as `CfgRenderer::new` observes it: whether the
`read_dir` entry itself was `Ok`, the result of `file_type()` (`none`
when the call failed, otherwise whether it is a regular file), the file
name, and the engine's registration outcome for it. -/
structure DirEntry where
  entry_ok : Bool
  file_type : Option Bool
  name : String
  register_result : Except String Unit

/-- The entry loop of `CfgRenderer::new`: skip failed entries, skip
entries whose file type is unknown or not a regular file, register the
rest; a registration failure aborts construction with
`Error::TemplateFileError`. -/
def registerEntries (entries : List DirEntry) (acc : List String) :
    Except SupError (List String) :=
  match entries with
  | [] => Except.ok acc
  | e :: rest =>
    if e.entry_ok = false then registerEntries rest acc
    else
      match e.file_type with
      | none => registerEntries rest acc
      | some false => registerEntries rest acc
      | some true =>
        match e.register_result with
        | Except.error err => Except.error (SupError.TemplateFileError err)
        | Except.ok _ => registerEntries rest (acc ++ [e.name])

/-- `CfgRenderer::new`, over the observed directory listing: `none`
models `std::fs::read_dir` failing (directory missing or unreadable),
in which case the `if let Ok(entries)` guard skips the whole loop and
construction succeeds with an empty template set. -/
def CfgRenderer.new (render : String → RenderContext → Except SupError String)
    (dir : Option (List DirEntry)) : Except SupError TemplateRenderer :=
  match dir with
  | some entries =>
    match registerEntries entries [] with
    | Except.error e => Except.error e
    | Except.ok names => Except.ok { templates := names, render := render }
  | none => Except.ok { templates := [], render := render }

/-- A chain of `n` nested single-key tables ending in a scalar leaf. -/
def tchain : Nat → Table
  | 0 => [("leaf", Value.integer 1)]
  | n + 1 => [("a", Value.table (tchain n))]

/-- The precedence example of the specification: default `{a=1,b=2}`,
environment `{a=3}`, user `{b=4}`, gossip `{a=5}`. -/
def exC1 : Cfg :=
  { default := some (Value.table [("a", Value.integer 1), ("b", Value.integer 2)]),
    environment := some (Value.table [("a", Value.integer 3)]),
    user := some (Value.table [("b", Value.integer 4)]),
    gossip := some (Value.table [("a", Value.integer 5)]),
    gossip_incarnation := 0 }

/-- A configuration whose merged view has keys `{t: table, s: scalar,
arr: array}` inserted in that order. -/
def exBucket : Cfg :=
  { default := some (Value.table
      [("t", Value.table [("k", Value.integer 1)]),
       ("s", Value.integer 2),
       ("arr", Value.array [Value.integer 3])]),
    environment := none, user := none, gossip := none,
    gossip_incarnation := 0 }

/-- A configuration whose merged view holds a nested table whose own
key order puts a table-valued key before a scalar-valued key. -/
def exNested : Cfg :=
  { default := some (Value.table
      [("outer", Value.table
        [("a", Value.table [("k", Value.integer 1)]),
         ("b", Value.integer 2)])]),
    environment := none, user := none, gossip := none,
    gossip_incarnation := 0 }

/-- A configuration whose merged view has a top-level `database` key but
no `server` table. -/
def exExport : Cfg :=
  { default := some (Value.table [("database", Value.integer 42)]),
    environment := none, user := none, gossip := none,
    gossip_incarnation := 0 }

/-- A package exporting `db` at dotted path `server.database`. -/
def pkgExport : Pkg :=
  { exports := [("db", "server.database")], svc_config_path := "/cfg" }

/-- A configuration whose user layer shares a 31-deep table chain with
the default layer: merging the user layer into the accumulated table
fails the depth guard after the key `x` was applied and before the key
`y` was reached; the gossip layer still follows. -/
def exDeep : Cfg :=
  { default := some (Value.table (tchain 31)),
    environment := none,
    user := some (Value.table
      [("x", Value.integer 3),
       ("a", Value.table (tchain 30)),
       ("y", Value.integer 4)]),
    gossip := some (Value.table [("g", Value.integer 5)]),
    gossip_incarnation := 0 }

/-- A concrete two-template renderer whose render output depends on the
template name. -/
def exRenderer : TemplateRenderer :=
  { templates := ["app.cfg", "db.cfg"],
    render := fun t _ => Except.ok ("rendered " ++ t) }

/-- A package with a short config output directory. -/
def exPkg : Pkg :=
  { exports := [], svc_config_path := "/cfg" }

/-- The file system produced by the first compile pass of `exRenderer`
over an empty file system. -/
def exFs1 : FileSystem :=
  [("/cfg/app.cfg", "rendered app.cfg"), ("/cfg/db.cfg", "rendered db.cfg")]

/-- A configuration state with stored gossip incarnation 5. -/
def exCfgUpd : Cfg :=
  { default := none, user := none, gossip := none, environment := none,
    gossip_incarnation := 5 }

/-- A census group carrying a service config at incarnation 7. -/
def exCensus : CensusGroup :=
  { service_config := some { incarnation := 7, value := Value.integer 9 } }

/-- A census group carrying no service config. -/
def exCensusNone : CensusGroup :=
  { service_config := none }

/-- A parser that accepts everything as the empty table. -/
def parseOkEx : String → Except String Table :=
  fun _ => Except.ok []

/-- A parser that rejects everything. -/
def parseErrEx : String → Except String Table :=
  fun _ => Except.error "boom"

/-- A document with a fully resolvable `server.database` path. -/
def exPathVal : Value :=
  Value.table [("server", Value.table [("database", Value.integer 1)])]

/-- A merge base holding a nested table, an array and a scalar. -/
def exMergeMe : Table :=
  [("a", Value.table [("x", Value.integer 1)]),
   ("arr", Value.array [Value.integer 1, Value.integer 2]),
   ("s", Value.integer 7)]

/-- A merge overlay replacing the array with a scalar, the scalar with
an array, sharing the nested table and adding a fresh key. -/
def exMergeOther : Table :=
  [("arr", Value.integer 5),
   ("s", Value.array [Value.integer 9]),
   ("new", Value.integer 3),
   ("a", Value.table [("y", Value.integer 2)])]

/-! Helper lemmas about association lists. -/

theorem assocGet_insert {α : Type} (key k : String) (v : α) (l : List (String × α)) :
    assocGet k (assocInsert key v l) = if key = k then some v else assocGet k l := by
  induction l with
  | nil => by_cases h : key = k <;> simp [assocInsert, assocGet, h]
  | cons hd tl ih =>
    obtain ⟨k0, w⟩ := hd
    by_cases h0 : k0 = key
    · subst h0
      by_cases h : k0 = k <;> simp [assocInsert, assocGet, h]
    · by_cases h : k0 = k
      · subst h
        have hk : ¬ key = k0 := fun he => h0 he.symm
        simp [assocInsert, assocGet, h0, hk]
      · simp [assocInsert, assocGet, h0, h, ih]

theorem assocGet_insert_self {α : Type} (key : String) (v : α) (l : List (String × α)) :
    assocGet key (assocInsert key v l) = some v := by
  simp [assocGet_insert]

theorem assocGet_insert_ne {α : Type} {key k : String} (h : key ≠ k) (v : α)
    (l : List (String × α)) :
    assocGet k (assocInsert key v l) = assocGet k l := by
  simp [assocGet_insert, h]

theorem assocGet_eq_none {α : Type} {k : String} {l : List (String × α)}
    (h : ∀ kv ∈ l, kv.1 ≠ k) : assocGet k l = none := by
  induction l with
  | nil => rfl
  | cons hd tl ih =>
    have h1 : hd.1 ≠ k := h hd (List.mem_cons_self hd tl)
    obtain ⟨k0, w⟩ := hd
    simp only [assocGet]
    rw [if_neg h1]
    exact ih (fun kv hkv => h kv (List.mem_cons_of_mem _ hkv))

theorem mem_of_assocGet {α : Type} {k : String} {v : α} {l : List (String × α)}
    (h : assocGet k l = some v) : (k, v) ∈ l := by
  induction l with
  | nil => simp [assocGet] at h
  | cons hd tl ih =>
    obtain ⟨k0, w⟩ := hd
    by_cases h0 : k0 = k
    · subst h0
      simp [assocGet] at h
      subst h
      exact List.mem_cons_self _ _
    · simp [assocGet, h0] at h
      exact List.mem_cons_of_mem _ (ih h)

/-! Helper lemmas about well-formed tables. -/

theorem tableWF_cons {key : String} {v : Value} {rest : Table}
    (h : tableWF ((key, v) :: rest) = true) :
    (∀ kv ∈ rest, kv.1 ≠ key) ∧ valueWF v = true ∧ tableWF rest = true := by
  simp only [tableWF, Bool.and_eq_true, Bool.not_eq_true'] at h
  obtain ⟨⟨hany, hv⟩, hrest⟩ := h
  refine ⟨?_, hv, hrest⟩
  intro kv hkv he
  have : rest.any (fun kv => kv.1 == key) = true :=
    List.any_eq_true.mpr ⟨kv, hkv, by simp [he]⟩
  rw [this] at hany
  cases hany

/-! Helper lemmas about `toml_merge_recurse`. -/

/-- The merge only touches keys of the overlay: a key absent from
`other` keeps its `me` binding — also across an early error exit. -/
theorem merge_get_absent (me other : Table) (depth : Nat) (k : String)
    (h : ∀ kv ∈ other, kv.1 ≠ k) :
    assocGet k (toml_merge_recurse me other depth).1 = assocGet k me := by
  induction me, other, depth using toml_merge_recurse.induct with
  | case1 me other depth hd =>
    rw [toml_merge_recurse.eq_def]
    simp [hd]
  | case2 me depth hd =>
    rw [toml_merge_recurse.eq_def]
    simp [hd]
  | case3 me depth hd key rest me_at_key other_table hget merged e hsub ih =>
    have hk : key ≠ k := h (key, Value.table other_table) (List.mem_cons_self _ _)
    rw [toml_merge_recurse.eq_def]
    simp only [if_neg hd, hget, hsub]
    exact assocGet_insert_ne hk _ me
  | case4 me depth hd key rest me_at_key other_table hget merged hsub ih1 ih2 =>
    have hk : key ≠ k := h (key, Value.table other_table) (List.mem_cons_self _ _)
    rw [toml_merge_recurse.eq_def]
    simp only [if_neg hd, hget, hsub]
    rw [ih2 (fun kv hkv => h kv (List.mem_cons_of_mem _ hkv))]
    exact assocGet_insert_ne hk _ me
  | case5 me depth hd key other_value rest hno ih =>
    have hk : key ≠ k := h (key, other_value) (List.mem_cons_self _ _)
    have hstep : toml_merge_recurse me ((key, other_value) :: rest) depth
        = toml_merge_recurse (assocInsert key other_value me) rest depth := by
      rw [toml_merge_recurse.eq_def]
      rw [if_neg hd]
      cases hget : assocGet key me with
      | none => cases other_value <;> simp [hget]
      | some mv =>
        cases mv <;> cases other_value <;>
          first
            | exact (hno _ _ hget rfl).elim
            | simp [hget]
    rw [hstep, ih (fun kv hkv => h kv (List.mem_cons_of_mem _ hkv))]
    exact assocGet_insert_ne hk _ me

/-- `sharedDepth` only looks `other` up in `me` at the keys of `other`,
so inserting at a key absent from `other` leaves it unchanged. -/
theorem sharedDepth_insert {key : String} (v : Value) (me rest : Table)
    (h : ∀ kv ∈ rest, kv.1 ≠ key) :
    sharedDepth (assocInsert key v me) rest = sharedDepth me rest := by
  induction rest with
  | nil => simp [sharedDepth]
  | cons hd tl ih =>
    obtain ⟨k2, ov2⟩ := hd
    have hk2 : k2 ≠ key := h (k2, ov2) (List.mem_cons_self _ _)
    have hne : key ≠ k2 := fun he => hk2 he.symm
    have htl : ∀ kv ∈ tl, kv.1 ≠ key := fun kv hkv => h kv (List.mem_cons_of_mem _ hkv)
    rw [sharedDepth.eq_def, sharedDepth.eq_def]
    simp only [assocGet_insert_ne hne]
    cases hget : assocGet k2 me with
    | none => cases ov2 <;> simp [ih htl]
    | some mv => cases mv <;> cases ov2 <;> simp [ih htl]

/-- The shared table depth is bounded by the nesting depth of the
overlay document. -/
theorem sharedDepth_le_tableDepth (me other : Table) :
    sharedDepth me other ≤ tableDepth other := by
  induction me, other using sharedDepth.induct with
  | case1 me => simp [sharedDepth, tableDepth]
  | case2 me key rest me_at_key other_table hget ih1 ih2 =>
    rw [sharedDepth.eq_def]
    simp only [hget, tableDepth, valueDepth]
    exact max_le_max (Nat.add_le_add_left ih1 1) ih2
  | case3 me key other_value rest hno ih =>
    rw [sharedDepth.eq_def]
    have hle : sharedDepth me rest ≤ max (valueDepth other_value) (tableDepth rest) :=
      Nat.le_trans ih (le_max_right _ _)
    cases hget : assocGet key me with
    | none => cases other_value <;> simpa [hget, tableDepth] using hle
    | some mv =>
      cases mv <;> cases other_value <;>
        first
          | exact (hno _ _ hget rfl).elim
          | simpa [hget, tableDepth] using hle

/-- Error characterization of the merge: for a well-formed overlay, the
merge fails — always with the depth error carrying the bound — exactly
when the deepest shared table chain would force a recursive call past
`TOML_MAX_MERGE_DEPTH`. -/
theorem merge_error_iff (me other : Table) (depth : Nat) (hwf : tableWF other = true) :
    (toml_merge_recurse me other depth).2 =
      (if TOML_MAX_MERGE_DEPTH < depth + sharedDepth me other
       then some (SupError.TomlMergeError mergeDepthMsg) else none) := by
  induction me, other, depth using toml_merge_recurse.induct with
  | case1 me other depth hd =>
    rw [toml_merge_recurse.eq_def]
    have hlt : TOML_MAX_MERGE_DEPTH < depth + sharedDepth me other :=
      Nat.lt_of_lt_of_le hd (Nat.le_add_right _ _)
    simp [if_pos hd, if_pos hlt]
  | case2 me depth hd =>
    rw [toml_merge_recurse.eq_def]
    have hge : ¬ TOML_MAX_MERGE_DEPTH < depth + sharedDepth me [] := by
      simp [sharedDepth]
      omega
    simp [if_neg hd, if_neg hge]
  | case3 me depth hd key rest me_at_key other_table hget merged e hsub ih =>
    obtain ⟨hkeys, hv, hrest⟩ := tableWF_cons hwf
    have hwfsub : tableWF other_table = true := by simpa [valueWF] using hv
    rw [hsub] at ih
    have ih2 := ih hwfsub
    by_cases hc : TOML_MAX_MERGE_DEPTH < depth + 1 + sharedDepth me_at_key other_table
    · have he : e = SupError.TomlMergeError mergeDepthMsg := by
        rw [if_pos (by omega : TOML_MAX_MERGE_DEPTH < (depth + 1) + sharedDepth me_at_key other_table)] at ih2
        exact Option.some.inj ih2
      rw [toml_merge_recurse.eq_def]
      simp only [if_neg hd, hget, hsub]
      rw [sharedDepth.eq_def]
      simp only [hget]
      have hlt : TOML_MAX_MERGE_DEPTH <
          depth + max (1 + sharedDepth me_at_key other_table) (sharedDepth me rest) := by
        rcases max_choice (1 + sharedDepth me_at_key other_table) (sharedDepth me rest) with hm | hm <;>
          rw [hm] <;>
          have := le_max_left (1 + sharedDepth me_at_key other_table) (sharedDepth me rest) <;>
          rw [hm] at this <;> omega
      rw [if_pos hlt, he]
    · rw [if_neg (by omega : ¬ TOML_MAX_MERGE_DEPTH < (depth + 1) + sharedDepth me_at_key other_table)] at ih2
      cases ih2
  | case4 me depth hd key rest me_at_key other_table hget merged hsub ih1 ih2 =>
    obtain ⟨hkeys, hv, hrest⟩ := tableWF_cons hwf
    have hwfsub : tableWF other_table = true := by simpa [valueWF] using hv
    rw [hsub] at ih1
    have hnc : ¬ TOML_MAX_MERGE_DEPTH < depth + 1 + sharedDepth me_at_key other_table := by
      intro hc
      rw [if_pos (by omega : TOML_MAX_MERGE_DEPTH < (depth + 1) + sharedDepth me_at_key other_table)] at ih1
      exact absurd (ih1 hwfsub) (by simp)
    have hsd : sharedDepth me ((key, Value.table other_table) :: rest)
        = max (1 + sharedDepth me_at_key other_table) (sharedDepth me rest) := by
      rw [sharedDepth.eq_def]
      simp only [hget]
    rw [toml_merge_recurse.eq_def]
    simp only [if_neg hd, hget, hsub]
    rw [ih2 hrest, sharedDepth_insert _ _ _ hkeys, hsd]
    by_cases hc2 : TOML_MAX_MERGE_DEPTH < depth + sharedDepth me rest
    · rw [if_pos hc2]
      have hlt : TOML_MAX_MERGE_DEPTH <
          depth + max (1 + sharedDepth me_at_key other_table) (sharedDepth me rest) := by
        rcases max_choice (1 + sharedDepth me_at_key other_table) (sharedDepth me rest) with hm | hm <;>
          rw [hm] <;>
          have := le_max_right (1 + sharedDepth me_at_key other_table) (sharedDepth me rest) <;>
          rw [hm] at this <;> omega
      rw [if_pos hlt]
    · rw [if_neg hc2]
      have hge : ¬ TOML_MAX_MERGE_DEPTH <
          depth + max (1 + sharedDepth me_at_key other_table) (sharedDepth me rest) := by
        rcases max_choice (1 + sharedDepth me_at_key other_table) (sharedDepth me rest) with hm | hm <;>
          rw [hm] <;> omega
      rw [if_neg hge]
  | case5 me depth hd key other_value rest hno ih =>
    obtain ⟨hkeys, hv, hrest⟩ := tableWF_cons hwf
    have hstep : toml_merge_recurse me ((key, other_value) :: rest) depth
        = toml_merge_recurse (assocInsert key other_value me) rest depth := by
      rw [toml_merge_recurse.eq_def]
      rw [if_neg hd]
      cases hget : assocGet key me with
      | none => cases other_value <;> simp [hget]
      | some mv =>
        cases mv <;> cases other_value <;>
          first
            | exact (hno _ _ hget rfl).elim
            | simp [hget]
    have hsd : sharedDepth me ((key, other_value) :: rest) = sharedDepth me rest := by
      rw [sharedDepth.eq_def]
      cases hget : assocGet key me with
      | none => cases other_value <;> simp [hget]
      | some mv =>
        cases mv <;> cases other_value <;>
          first
            | exact (hno _ _ hget rfl).elim
            | simp [hget]
    rw [hstep, ih hrest, sharedDepth_insert _ _ _ hkeys, hsd]

/-- Step equation for the merge at a non-shared-table key. -/
theorem merge_cons_else (me rest : Table) (depth : Nat) (key : String) (other_value : Value)
    (hd : ¬ TOML_MAX_MERGE_DEPTH < depth)
    (hno : ∀ me_at_key other_table : Table,
      assocGet key me = some (Value.table me_at_key) → other_value = Value.table other_table → False) :
    toml_merge_recurse me ((key, other_value) :: rest) depth
      = toml_merge_recurse (assocInsert key other_value me) rest depth := by
  rw [toml_merge_recurse.eq_def]
  rw [if_neg hd]
  cases hget : assocGet key me with
  | none => cases other_value <;> simp [hget]
  | some mv =>
    cases mv <;> cases other_value <;>
      first
        | exact (hno _ _ hget rfl).elim
        | simp [hget]

/-- Step equation for the merge at a key where both sides hold tables
and the recursive merge fails: the partially merged subtree is written
back and the error propagates. -/
theorem merge_cons_tables (me rest : Table) (depth : Nat) (key : String)
    (me_at_key other_table merged : Table) (e : SupError)
    (hd : ¬ TOML_MAX_MERGE_DEPTH < depth)
    (hget : assocGet key me = some (Value.table me_at_key))
    (hsub : toml_merge_recurse me_at_key other_table (depth + 1) = (merged, some e)) :
    toml_merge_recurse me ((key, Value.table other_table) :: rest) depth
      = (assocInsert key (Value.table merged) me, some e) := by
  rw [toml_merge_recurse.eq_def]
  simp only [if_neg hd, hget, hsub]

/-- Step equation for `sharedDepth` at a non-shared-table key. -/
theorem sharedDepth_cons_else (me rest : Table) (key : String) (other_value : Value)
    (hno : ∀ me_at_key other_table : Table,
      assocGet key me = some (Value.table me_at_key) → other_value = Value.table other_table → False) :
    sharedDepth me ((key, other_value) :: rest) = sharedDepth me rest := by
  rw [sharedDepth.eq_def]
  cases hget : assocGet key me with
  | none => cases other_value <;> simp [hget]
  | some mv =>
    cases mv <;> cases other_value <;>
      first
        | exact (hno _ _ hget rfl).elim
        | simp [hget]

/-- Per-key result of a successful merge: a key absent from the overlay
keeps its base binding; a key where both sides hold tables gets the
recursive merge of the two tables; any other overlay key gets the
overlay value verbatim. -/
theorem merge_get (me other : Table) (depth : Nat) :
    tableWF other = true → (toml_merge_recurse me other depth).2 = none → ∀ k,
    assocGet k (toml_merge_recurse me other depth).1 =
      (match assocGet k other, assocGet k me with
       | some (Value.table ot), some (Value.table mt) =>
         some (Value.table (toml_merge_recurse mt ot (depth + 1)).1)
       | some ov, _ => some ov
       | none, _ => assocGet k me) := by
  induction me, other, depth using toml_merge_recurse.induct with
  | case1 me other depth hd =>
    intro hwf hok
    rw [toml_merge_recurse.eq_def] at hok
    simp [if_pos hd] at hok
  | case2 me depth hd =>
    intro hwf hok k
    rw [toml_merge_recurse.eq_def]
    simp [if_neg hd, assocGet]
  | case3 me depth hd key rest me_at_key other_table hget merged e hsub ih =>
    intro hwf hok
    rw [toml_merge_recurse.eq_def] at hok
    simp [if_neg hd, hget, hsub] at hok
  | case4 me depth hd key rest me_at_key other_table hget merged hsub ih1 ih2 =>
    intro hwf hok k
    obtain ⟨hkeys, hv, hrest⟩ := tableWF_cons hwf
    rw [toml_merge_recurse.eq_def] at hok ⊢
    simp only [if_neg hd, hget, hsub] at hok ⊢
    by_cases hk : key = k
    · subst hk
      have habs : assocGet key (toml_merge_recurse
          (assocInsert key (Value.table merged) me) rest depth).1
          = assocGet key (assocInsert key (Value.table merged) me) :=
        merge_get_absent _ rest depth key hkeys
      rw [habs, assocGet_insert_self]
      have hother : assocGet key ((key, Value.table other_table) :: rest)
          = some (Value.table other_table) := by simp [assocGet]
      rw [hother, hget]
      simp [hsub]
    · have hme2 : assocGet k (assocInsert key (Value.table merged) me) = assocGet k me :=
        assocGet_insert_ne hk _ me
      have hother : assocGet k ((key, Value.table other_table) :: rest) = assocGet k rest := by
        simp [assocGet, hk]
      rw [ih2 hrest hok k, hme2, hother]
  | case5 me depth hd key other_value rest hno ih =>
    intro hwf hok k
    obtain ⟨hkeys, hv, hrest⟩ := tableWF_cons hwf
    rw [merge_cons_else me rest depth key other_value hd hno] at hok ⊢
    by_cases hk : key = k
    · subst hk
      have habs : assocGet key (toml_merge_recurse
          (assocInsert key other_value me) rest depth).1
          = assocGet key (assocInsert key other_value me) :=
        merge_get_absent _ rest depth key hkeys
      rw [habs, assocGet_insert_self]
      have hother : assocGet key ((key, other_value) :: rest) = some other_value := by
        simp [assocGet]
      rw [hother]
      cases hget : assocGet key me with
      | none => cases other_value <;> simp [hget]
      | some mv =>
        cases mv <;> cases other_value <;>
          first
            | exact (hno _ _ hget rfl).elim
            | simp [hget]
    · have hme2 : assocGet k (assocInsert key other_value me) = assocGet k me :=
        assocGet_insert_ne hk _ me
      have hother : assocGet k ((key, other_value) :: rest) = assocGet k rest := by
        simp [assocGet, hk]
      rw [ih hrest hok k, hme2, hother]

/-- Non-table values have depth zero. -/
theorem valueDepth_eq_zero {v : Value} (h : Value.is_table v = false) : valueDepth v = 0 := by
  cases v <;> first
    | rfl
    | simp [Value.is_table] at h

/-- A flat table has nesting depth zero. -/
theorem tableDepth_flat {t : Table} (h : flatTable t = true) : tableDepth t = 0 := by
  induction t with
  | nil => rfl
  | cons hd tl ih =>
    simp only [flatTable, List.all_cons, Bool.and_eq_true, Bool.not_eq_true'] at h
    have h1 := valueDepth_eq_zero h.1
    have h2 : flatTable tl = true := by simp [flatTable, h.2]
    simp [tableDepth, h1, ih h2]

/-- Merging a flat overlay always succeeds, and the result reads as
"overlay wins per key". -/
theorem merge_flat_get (me other : Table) (hf : flatUnique other = true) (k : String) :
    assocGet k (toml_merge me other).1 = (assocGet k other).or (assocGet k me) := by
  have hflat : flatTable other = true ∧ tableWF other = true := by
    simpa [flatUnique, Bool.and_eq_true] using hf
  have hok : (toml_merge_recurse me other 0).2 = none := by
    rw [merge_error_iff me other 0 hflat.2]
    have hsd := sharedDepth_le_tableDepth me other
    have hd0 : tableDepth other = 0 := tableDepth_flat hflat.1
    rw [if_neg]
    show ¬ (30 : Nat) < 0 + sharedDepth me other
    omega
  have hm := merge_get me other 0 hflat.2 hok k
  rw [toml_merge, hm]
  cases hgo : assocGet k other with
  | none => rw [Option.none_or]
  | some ov =>
    have hmem := mem_of_assocGet hgo
    have hnt : Value.is_table ov = false := by
      have := List.all_eq_true.mp hflat.1 (k, ov) hmem
      simpa using this
    cases ov <;> first
      | rfl
      | simp [Value.is_table] at hnt

/-- Unfolding the merge phase at a table-valued layer. -/
theorem mergeLayerStep_table (acc : Table × List SupError) (l : Table) :
    (mergeLayerStep acc (some (Value.table l))).1 = (toml_merge acc.1 l).1 := by
  rcases h : toml_merge acc.1 l with ⟨t, e⟩
  cases e <;> simp [mergeLayerStep, h]

/-! Helper lemmas about strings, hashing and destinations. -/

theorem string_append_left_cancel {p s t : String} (h : p ++ s = p ++ t) : s = t := by
  apply String.ext
  have hd := congrArg String.data h
  rw [String.data_append, String.data_append] at hd
  exact List.append_cancel_left hd

theorem hash_string_injective {a b : String} (h : hash_string a = hash_string b) : a = b :=
  string_append_left_cancel h

theorem hash_string_ne_empty (s : String) : hash_string s ≠ "" := by
  intro h
  have hl := congrArg String.length h
  rw [hash_string, String.length_append] at hl
  simp at hl
  exact absurd hl.1 (by decide)

theorem cfgDest_inj {pkg : Pkg} {t1 t2 : String} (h : cfgDest pkg t1 = cfgDest pkg t2) :
    t1 = t2 :=
  string_append_left_cancel h

/-! Helper lemmas about the compile loop. -/

/-! Step equations for the compile loop. -/

theorem compileLoop_cons_render_error (render : String → RenderContext → Except SupError String)
    (pkg : Pkg) (ctx : RenderContext) (t : String) (rest : List String)
    (fs : FileSystem) (changed : Bool) {e : SupError}
    (hr : render t ctx = Except.error e) :
    compileLoop render pkg ctx (t :: rest) fs changed = Except.error e := by
  simp [compileLoop, hr]

theorem compileLoop_cons_missing (render : String → RenderContext → Except SupError String)
    (pkg : Pkg) (ctx : RenderContext) (t : String) (rest : List String)
    (fs : FileSystem) (changed : Bool) {compiled : String}
    (hr : render t ctx = Except.ok compiled)
    (hg : assocGet (cfgDest pkg t) fs = none) :
    compileLoop render pkg ctx (t :: rest) fs changed
      = compileLoop render pkg ctx rest (assocInsert (cfgDest pkg t) compiled fs) true := by
  simp [compileLoop, hr, hash_file, hg]

theorem compileLoop_cons_same (render : String → RenderContext → Except SupError String)
    (pkg : Pkg) (ctx : RenderContext) (t : String) (rest : List String)
    (fs : FileSystem) (changed : Bool) {compiled : String}
    (hr : render t ctx = Except.ok compiled)
    (hg : assocGet (cfgDest pkg t) fs = some compiled) :
    compileLoop render pkg ctx (t :: rest) fs changed
      = compileLoop render pkg ctx rest fs changed := by
  simp only [compileLoop, hr, hash_file, hg]
  rw [if_neg (hash_string_ne_empty compiled)]
  simp

theorem compileLoop_cons_diff (render : String → RenderContext → Except SupError String)
    (pkg : Pkg) (ctx : RenderContext) (t : String) (rest : List String)
    (fs : FileSystem) (changed : Bool) {compiled content : String}
    (hr : render t ctx = Except.ok compiled)
    (hg : assocGet (cfgDest pkg t) fs = some content)
    (hne : content ≠ compiled) :
    compileLoop render pkg ctx (t :: rest) fs changed
      = compileLoop render pkg ctx rest (assocInsert (cfgDest pkg t) compiled fs) true := by
  simp only [compileLoop, hr, hash_file, hg]
  rw [if_neg (hash_string_ne_empty content),
    if_neg (fun he => hne (hash_string_injective he))]

/-- Once `changed` is set it stays set. -/
theorem compileLoop_mono (render : String → RenderContext → Except SupError String)
    (pkg : Pkg) (ctx : RenderContext) :
    ∀ (ts : List String) (fs fs' : FileSystem) (c' : Bool),
    compileLoop render pkg ctx ts fs true = Except.ok (fs', c') → c' = true := by
  intro ts
  induction ts with
  | nil =>
    intro fs fs' c' h
    simp [compileLoop] at h
    exact h.2
  | cons t rest ih =>
    intro fs fs' c' h
    cases hr : render t ctx with
    | error e =>
      rw [compileLoop_cons_render_error render pkg ctx t rest fs true hr] at h
      cases h
    | ok compiled =>
      cases hg : assocGet (cfgDest pkg t) fs with
      | none =>
        rw [compileLoop_cons_missing render pkg ctx t rest fs true hr hg] at h
        exact ih _ _ _ h
      | some content =>
        by_cases hce : content = compiled
        · subst hce
          rw [compileLoop_cons_same render pkg ctx t rest fs true hr hg] at h
          exact ih _ _ _ h
        · rw [compileLoop_cons_diff render pkg ctx t rest fs true hr hg hce] at h
          exact ih _ _ _ h

/-- The loop writes only to the destinations of its templates. -/
theorem compileLoop_untouched (render : String → RenderContext → Except SupError String)
    (pkg : Pkg) (ctx : RenderContext) :
    ∀ (ts : List String) (fs : FileSystem) (changed : Bool) (fs' : FileSystem) (c' : Bool),
    compileLoop render pkg ctx ts fs changed = Except.ok (fs', c') →
    ∀ p, (∀ t ∈ ts, p ≠ cfgDest pkg t) → assocGet p fs' = assocGet p fs := by
  intro ts
  induction ts with
  | nil =>
    intro fs changed fs' c' h p hp
    simp [compileLoop] at h
    rw [h.1]
  | cons t rest ih =>
    intro fs changed fs' c' h p hp
    have hpt : p ≠ cfgDest pkg t := hp t (List.mem_cons_self _ _)
    have hprest : ∀ u ∈ rest, p ≠ cfgDest pkg u :=
      fun u hu => hp u (List.mem_cons_of_mem _ hu)
    cases hr : render t ctx with
    | error e =>
      rw [compileLoop_cons_render_error render pkg ctx t rest fs changed hr] at h
      cases h
    | ok compiled =>
      cases hg : assocGet (cfgDest pkg t) fs with
      | none =>
        rw [compileLoop_cons_missing render pkg ctx t rest fs changed hr hg] at h
        rw [ih _ _ _ _ h p hprest, assocGet_insert_ne hpt.symm]
      | some content =>
        by_cases hce : content = compiled
        · subst hce
          rw [compileLoop_cons_same render pkg ctx t rest fs changed hr hg] at h
          exact ih _ _ _ _ h p hprest
        · rw [compileLoop_cons_diff render pkg ctx t rest fs changed hr hg hce] at h
          rw [ih _ _ _ _ h p hprest, assocGet_insert_ne hpt.symm]

/-- After a successful pass every template's destination file holds
exactly that template's rendered text. -/
theorem compileLoop_dest (render : String → RenderContext → Except SupError String)
    (pkg : Pkg) (ctx : RenderContext) :
    ∀ (ts : List String), List.Nodup ts →
    ∀ (fs : FileSystem) (changed : Bool) (fs' : FileSystem) (c' : Bool),
    compileLoop render pkg ctx ts fs changed = Except.ok (fs', c') →
    ∀ t ∈ ts, ∃ txt, render t ctx = Except.ok txt ∧
      assocGet (cfgDest pkg t) fs' = some txt := by
  intro ts
  induction ts with
  | nil =>
    intro _ fs changed fs' c' h t ht
    cases ht
  | cons t rest ih =>
    intro hnd fs changed fs' c' h u hu
    have hnotmem : t ∉ rest := (List.nodup_cons.mp hnd).1
    have hndrest : List.Nodup rest := (List.nodup_cons.mp hnd).2
    have hdests : ∀ v ∈ rest, cfgDest pkg t ≠ cfgDest pkg v := by
      intro v hv he
      exact hnotmem (cfgDest_inj he ▸ hv)
    cases hr : render t ctx with
    | error e =>
      rw [compileLoop_cons_render_error render pkg ctx t rest fs changed hr] at h
      cases h
    | ok compiled =>
      rcases List.mem_cons.mp hu with hut | hurest
      · subst hut
        refine ⟨compiled, hr, ?_⟩
        cases hg : assocGet (cfgDest pkg u) fs with
        | none =>
          rw [compileLoop_cons_missing render pkg ctx u rest fs changed hr hg] at h
          rw [compileLoop_untouched render pkg ctx rest _ _ _ _ h _ hdests,
            assocGet_insert_self]
        | some content =>
          by_cases hce : content = compiled
          · subst hce
            rw [compileLoop_cons_same render pkg ctx u rest fs changed hr hg] at h
            rw [compileLoop_untouched render pkg ctx rest _ _ _ _ h _ hdests, hg]
          · rw [compileLoop_cons_diff render pkg ctx u rest fs changed hr hg hce] at h
            rw [compileLoop_untouched render pkg ctx rest _ _ _ _ h _ hdests,
              assocGet_insert_self]
      · cases hg : assocGet (cfgDest pkg t) fs with
        | none =>
          rw [compileLoop_cons_missing render pkg ctx t rest fs changed hr hg] at h
          exact ih hndrest _ _ _ _ h u hurest
        | some content =>
          by_cases hce : content = compiled
          · subst hce
            rw [compileLoop_cons_same render pkg ctx t rest fs changed hr hg] at h
            exact ih hndrest _ _ _ _ h u hurest
          · rw [compileLoop_cons_diff render pkg ctx t rest fs changed hr hg hce] at h
            exact ih hndrest _ _ _ _ h u hurest

/-- The final `changed` flag is the OR, over the templates, of "the
destination (as it was when the pass started) did not already hold the
rendered text". -/
theorem compileLoop_changed (render : String → RenderContext → Except SupError String)
    (pkg : Pkg) (ctx : RenderContext) :
    ∀ (ts : List String), List.Nodup ts →
    ∀ (fs : FileSystem) (changed : Bool) (fs' : FileSystem) (c' : Bool),
    compileLoop render pkg ctx ts fs changed = Except.ok (fs', c') →
    (c' = true ↔ changed = true ∨ ∃ t ∈ ts, ∃ txt, render t ctx = Except.ok txt ∧
      assocGet (cfgDest pkg t) fs ≠ some txt) := by
  intro ts
  induction ts with
  | nil =>
    intro _ fs changed fs' c' h
    simp [compileLoop] at h
    simp [h.2]
  | cons t rest ih =>
    intro hnd fs changed fs' c' h
    have hndrest : List.Nodup rest := (List.nodup_cons.mp hnd).2
    cases hr : render t ctx with
    | error e =>
      rw [compileLoop_cons_render_error render pkg ctx t rest fs changed hr] at h
      cases h
    | ok compiled =>
      cases hg : assocGet (cfgDest pkg t) fs with
      | none =>
        rw [compileLoop_cons_missing render pkg ctx t rest fs changed hr hg] at h
        have hc := compileLoop_mono render pkg ctx rest _ _ _ h
        subst hc
        simp only [true_iff]
        exact Or.inr ⟨t, List.mem_cons_self _ _, compiled, hr, by simp [hg]⟩
      | some content =>
        by_cases hce : content = compiled
        · subst hce
          rw [compileLoop_cons_same render pkg ctx t rest fs changed hr hg] at h
          rw [ih hndrest _ _ _ _ h]
          constructor
          · rintro (hch | ⟨v, hv, txt, hrv, hgv⟩)
            · exact Or.inl hch
            · exact Or.inr ⟨v, List.mem_cons_of_mem _ hv, txt, hrv, hgv⟩
          · rintro (hch | ⟨v, hv, txt, hrv, hgv⟩)
            · exact Or.inl hch
            · rcases List.mem_cons.mp hv with hvt | hvrest
              · subst hvt
                rw [hr] at hrv
                cases hrv
                exact absurd hg (fun hgg => hgv hgg)
              · exact Or.inr ⟨v, hvrest, txt, hrv, hgv⟩
        · rw [compileLoop_cons_diff render pkg ctx t rest fs changed hr hg hce] at h
          have hc := compileLoop_mono render pkg ctx rest _ _ _ h
          subst hc
          simp only [true_iff]
          exact Or.inr ⟨t, List.mem_cons_self _ _, compiled, hr,
            by simp [hg]; exact fun he => hce he⟩

/-- A pass that reports `changed = false` wrote nothing. -/
theorem compileLoop_nochange (render : String → RenderContext → Except SupError String)
    (pkg : Pkg) (ctx : RenderContext) :
    ∀ (ts : List String) (fs : FileSystem) (changed : Bool) (fs' : FileSystem),
    compileLoop render pkg ctx ts fs changed = Except.ok (fs', false) →
    fs' = fs ∧ changed = false := by
  intro ts
  induction ts with
  | nil =>
    intro fs changed fs' h
    simp [compileLoop] at h
    exact ⟨h.1.symm, h.2⟩
  | cons t rest ih =>
    intro fs changed fs' h
    cases hr : render t ctx with
    | error e =>
      rw [compileLoop_cons_render_error render pkg ctx t rest fs changed hr] at h
      cases h
    | ok compiled =>
      cases hg : assocGet (cfgDest pkg t) fs with
      | none =>
        rw [compileLoop_cons_missing render pkg ctx t rest fs changed hr hg] at h
        cases compileLoop_mono render pkg ctx rest _ _ _ h
      | some content =>
        by_cases hce : content = compiled
        · subst hce
          rw [compileLoop_cons_same render pkg ctx t rest fs changed hr hg] at h
          exact ih _ _ _ h
        · rw [compileLoop_cons_diff render pkg ctx t rest fs changed hr hg hce] at h
          cases compileLoop_mono render pkg ctx rest _ _ _ h

/-- When every destination already holds its rendered text, the pass
writes nothing and passes the incoming flag through. -/
theorem compileLoop_skip_all (render : String → RenderContext → Except SupError String)
    (pkg : Pkg) (ctx : RenderContext) :
    ∀ (ts : List String) (fs : FileSystem) (changed : Bool),
    (∀ t ∈ ts, ∃ txt, render t ctx = Except.ok txt ∧
      assocGet (cfgDest pkg t) fs = some txt) →
    compileLoop render pkg ctx ts fs changed = Except.ok (fs, changed) := by
  intro ts
  induction ts with
  | nil => intro fs changed _; rfl
  | cons t rest ih =>
    intro fs changed hall
    obtain ⟨txt, hrt, hgt⟩ := hall t (List.mem_cons_self _ _)
    rw [compileLoop_cons_same render pkg ctx t rest fs changed hrt hgt]
    exact ih fs changed (fun u hu => hall u (List.mem_cons_of_mem _ hu))

/-! Helper lemmas about deep single-key chains. -/

theorem tchain_wf (n : Nat) : tableWF (tchain n) = true := by
  induction n with
  | zero => simp [tchain, tableWF, valueWF]
  | succ n ih => simp [tchain, tableWF, valueWF, ih]

theorem sharedDepth_tchain (n : Nat) : sharedDepth (tchain n) (tchain n) = n := by
  induction n with
  | zero =>
    rw [sharedDepth.eq_def]
    simp [tchain, assocGet]
    rw [sharedDepth.eq_def]
  | succ n ih =>
    rw [sharedDepth.eq_def]
    simp [tchain, assocGet, ih]
    rw [sharedDepth.eq_def]
    simp
    omega

theorem tableDepth_tchain (n : Nat) : tableDepth (tchain n) = n := by
  induction n with
  | zero => simp [tchain, tableDepth, valueDepth]
  | succ n ih =>
    simp [tchain, tableDepth, valueDepth, ih]
    omega

/-! Helper lemmas about the export walk. -/

theorem stickyResolve_cons (v : Value) (f : String) (r1 : String) (rs : List String) :
    stickyResolve v (f :: r1 :: rs) =
      (match Value.get v f with
       | some w => stickyResolve w (r1 :: rs)
       | none => stickyResolve v (r1 :: rs)) := by
  rfl

/-- The imperative `(curr, found)` fold of the export loop computes
exactly the sticky walk: the final flag says whether the last segment
resolved, and on success the final cursor is the resolved value. -/
theorem sticky_fold (fields : List String) :
    ∀ (v : Value) (b : Bool), fields ≠ [] →
    ((fields.foldl fieldStep (v, b)).2 = (stickyResolve v fields).isSome
      ∧ ∀ w, stickyResolve v fields = some w → (fields.foldl fieldStep (v, b)).1 = w) := by
  induction fields with
  | nil => intro v b h; exact absurd rfl h
  | cons f rest ih =>
    intro v b _
    cases rest with
    | nil =>
      simp only [List.foldl_cons, List.foldl_nil, stickyResolve]
      cases hv : Value.get v f <;> simp [fieldStep, hv]
    | cons r1 rs =>
      have hne : r1 :: rs ≠ [] := by simp
      rw [List.foldl_cons, stickyResolve_cons]
      cases hv : Value.get v f with
      | some w => simpa only [fieldStep, hv] using ih w true hne
      | none => simpa only [fieldStep, hv] using ih v false hne

/-- One step of the export loop, characterised by the sticky walk. -/
theorem exportStep_spec (cfgVal : Value) (map : Table) (kp : String × String) :
    exportStep cfgVal map kp =
      (match stickyResolve cfgVal (splitChar '.' kp.2) with
       | some w => assocInsert kp.1 w map
       | none => map) := by
  unfold exportStep
  cases hf : splitChar '.' kp.2 with
  | nil => simp [stickyResolve]
  | cons f rest =>
    have h := sticky_fold (f :: rest) cfgVal false (by simp)
    cases hs : stickyResolve cfgVal (f :: rest) with
    | none =>
      have h2 := h.1
      rw [hs] at h2
      simp only [Option.isSome_none] at h2
      simp only [List.foldl_cons] at h2
      simp [h2]
    | some w =>
      have h2 := h.1
      rw [hs] at h2
      simp only [Option.isSome_some] at h2
      have h3 := h.2 w hs
      simp only [List.foldl_cons] at h2 h3
      simp [h2, h3]

/-- `Cfg::to_exported` computes the sticky-walk export map. -/
theorem to_exported_spec (cfg : Cfg) (pkg : Pkg) :
    Cfg.to_exported cfg pkg
      = Except.ok (exportedSpec (Value.table (Cfg.serializeOut cfg)) pkg.exports) := by
  unfold Cfg.to_exported exportedSpec
  congr 1
  generalize Value.table (Cfg.serializeOut cfg) = cv
  generalize hm : ([] : Table) = map
  clear hm
  induction pkg.exports generalizing map with
  | nil => rfl
  | cons kp rest ih =>
    rw [List.foldl_cons, List.foldl_cons, exportStep_spec]
    exact ih _

/-- Full sequential resolution implies the sticky walk resolves to the
same value. -/
theorem sticky_of_resolve (fields : List String) :
    ∀ (v w : Value), fields ≠ [] → resolvePath v fields = some w →
    stickyResolve v fields = some w := by
  induction fields with
  | nil => intro v w h; exact absurd rfl h
  | cons f rest ih =>
    intro v w _ h
    cases hv : Value.get v f with
    | none => simp [resolvePath, hv] at h
    | some u =>
      simp only [resolvePath, hv] at h
      cases rest with
      | nil =>
        simp only [resolvePath] at h
        simp [stickyResolve, hv, h]
      | cons r1 rs =>
        rw [stickyResolve_cons]
        simp only [hv]
        exact ih u w (by simp) h

/-! Helper lemmas about the serialization bucket pass. -/

theorem is_table_false_of_is_array {v : Value} (h : Value.is_array v = true) :
    Value.is_table v = false := by
  cases v <;> first
    | rfl
    | simp [Value.is_array] at h

theorem sorted_append_le {l1 l2 : List Nat} (h1 : List.Sorted (· ≤ ·) l1)
    (h2 : List.Sorted (· ≤ ·) l2) (hc : ∀ x ∈ l1, ∀ y ∈ l2, x ≤ y) :
    List.Sorted (· ≤ ·) (l1 ++ l2) := by
  rw [List.Sorted, List.pairwise_append]
  exact ⟨h1, h2, hc⟩

theorem sorted_const {l : List Nat} {c : Nat} (h : ∀ x ∈ l, x = c) :
    List.Sorted (· ≤ ·) l := by
  induction l with
  | nil => exact List.sorted_nil
  | cons a rest ih =>
    rw [List.sorted_cons]
    refine ⟨?_, ih (fun x hx => h x (List.mem_cons_of_mem _ hx))⟩
    intro b hb
    rw [h a (List.mem_cons_self _ _), h b (List.mem_cons_of_mem _ hb)]

/-- The array bucket is the array-valued entries of the table. -/
theorem filter_array_of_not_scalar (t : Table) :
    List.filter (fun kv => Value.is_array kv.2)
      (List.filter (fun kv => !(!(Value.is_array kv.2) && !(Value.is_table kv.2))) t)
      = List.filter (fun kv => Value.is_array kv.2) t := by
  rw [List.filter_filter]
  apply List.filter_congr
  intro x _
  obtain ⟨k, v⟩ := x
  cases v <;> rfl

/-- The table bucket is the table-valued entries of the table. -/
theorem filter_table_of_not_scalar (t : Table) :
    List.filter (fun kv => !(Value.is_array kv.2))
      (List.filter (fun kv => !(!(Value.is_array kv.2) && !(Value.is_table kv.2))) t)
      = List.filter (fun kv => Value.is_table kv.2) t := by
  rw [List.filter_filter]
  apply List.filter_congr
  intro x _
  obtain ⟨k, v⟩ := x
  cases v <;> rfl

/-- The bucket pass emits exactly the entries of the merged table,
reordered. -/
theorem bucketize_perm (t : Table) : (bucketize t).Perm t := by
  unfold bucketize
  have h1 := List.filter_append_perm
    (fun kv => !(Value.is_array kv.2) && !(Value.is_table kv.2)) t
  have h2 := List.filter_append_perm (fun kv => Value.is_array kv.2)
    (List.filter (fun kv => !(!(Value.is_array kv.2) && !(Value.is_table kv.2))) t)
  rw [filter_array_of_not_scalar, filter_table_of_not_scalar] at h2
  rw [List.append_assoc]
  exact (List.Perm.append_left _ h2).trans h1

/-- The emission ranks of the bucket pass are weakly increasing:
scalars, then arrays, then tables. -/
theorem bucketize_sorted (t : Table) :
    List.Sorted (· ≤ ·) ((bucketize t).map (fun kv => classRank kv.2)) := by
  unfold bucketize
  rw [List.map_append, List.map_append]
  have m1 : ∀ x ∈ (List.filter (fun kv => !(Value.is_array kv.2) && !(Value.is_table kv.2))
      t).map (fun kv => classRank kv.2), x = 0 := by
    intro x hx
    rcases List.mem_map.mp hx with ⟨kv, hkv, he⟩
    have hp := (List.mem_filter.mp hkv).2
    simp only [Bool.and_eq_true, Bool.not_eq_true'] at hp
    rw [← he]
    simp [classRank, hp.1, hp.2]
  have m2 : ∀ x ∈ (List.filter (fun kv => Value.is_array kv.2) t).map
      (fun kv => classRank kv.2), x = 1 := by
    intro x hx
    rcases List.mem_map.mp hx with ⟨kv, hkv, he⟩
    have hp := (List.mem_filter.mp hkv).2
    have hnt : Value.is_table kv.2 = false := is_table_false_of_is_array hp
    rw [← he]
    simp [classRank, hp, hnt]
  have m3 : ∀ x ∈ (List.filter (fun kv => Value.is_table kv.2) t).map
      (fun kv => classRank kv.2), x = 2 := by
    intro x hx
    rcases List.mem_map.mp hx with ⟨kv, hkv, he⟩
    have hp := (List.mem_filter.mp hkv).2
    rw [← he]
    simp [classRank, hp]
  apply sorted_append_le
  · apply sorted_append_le (sorted_const m1) (sorted_const m2)
    intro x hx y hy
    rw [m1 x hx, m2 y hy]
    omega
  · exact sorted_const m3
  · intro x hx y hy
    rw [m3 y hy]
    rcases List.mem_append.mp hx with hx1 | hx2
    · rw [m1 x hx1]; omega
    · rw [m2 x hx2]; omega

/-! The claims. -/

/-- C2: `Cfg::update` returns true and replaces the gossip layer and
stored incarnation exactly when the census-group view carries a
service-config entry with incarnation strictly greater than the stored
one; otherwise it returns false and leaves the state unchanged; being a
total function returning `bool`, it never fails. -/
theorem spec_c2 (c : Cfg) (g : CensusGroup) :
    ((Cfg.update c g).2 = true ↔
      ∃ sc, g.service_config = some sc ∧ c.gossip_incarnation < sc.incarnation)
    ∧ ((Cfg.update c g).2 = false → Cfg.update c g = (c, false))
    ∧ (∀ sc, g.service_config = some sc → c.gossip_incarnation < sc.incarnation →
        Cfg.update c g = ({ c with
          gossip := some sc.value
          gossip_incarnation := sc.incarnation }, true)) := by
  refine ⟨?_, ?_, ?_⟩
  · cases hg : g.service_config with
    | none => simp [Cfg.update, hg]
    | some sc =>
      simp only [Cfg.update, hg]
      by_cases hle : sc.incarnation ≤ c.gossip_incarnation
      · rw [if_pos hle]
        refine ⟨fun h => absurd h (by simp), ?_⟩
        rintro ⟨sc2, hsc2, hlt⟩
        cases hsc2
        omega
      · rw [if_neg hle]
        push_neg at hle
        exact ⟨fun _ => ⟨sc, rfl, hle⟩, fun _ => rfl⟩
  · cases hg : g.service_config with
    | none =>
      intro _
      simp [Cfg.update, hg]
    | some sc =>
      intro hfalse
      simp only [Cfg.update, hg] at hfalse ⊢
      by_cases hle : sc.incarnation ≤ c.gossip_incarnation
      · rw [if_pos hle]
      · rw [if_neg hle] at hfalse
        simp at hfalse
  · intro sc hsc hlt
    simp only [Cfg.update, hsc]
    rw [if_neg (by omega)]

/-- Witness for C2 at a concrete state: incarnation 7 beats stored 5 and
replaces the layer; an absent entry is a no-op. -/
theorem spec_c2_witness :
    Cfg.update exCfgUpd exCensus
      = ({ exCfgUpd with
          gossip := some (Value.integer 9)
          gossip_incarnation := 7 }, true) :=
  (spec_c2 exCfgUpd exCensus).2.2 { incarnation := 7, value := Value.integer 9 } rfl
    (by decide)

/-- C10: when the template directory cannot be read at all,
`CfgRenderer::new` still succeeds with an empty template set, and every
compile pass over that renderer processes zero templates, writes no
files and reports `changed = false`. -/
theorem spec_c10 (render : String → RenderContext → Except SupError String)
    (pkg : Pkg) (ctx : RenderContext) (fs : FileSystem) :
    CfgRenderer.new render none = Except.ok { templates := [], render := render }
    ∧ CfgRenderer.compile { templates := [], render := render } pkg ctx fs
        = Except.ok (fs, false) :=
  ⟨rfl, rfl⟩

/-- C8 (amended): an absent layer file is not an error, and a read
failure after the file was opened is ALSO not an error — both degrade
the layer to empty and construction continues; only a parse failure on
successfully read content propagates, failing construction. -/
theorem spec_c8_amended (parse : String → Except String Table) :
    Cfg.load_toml_file parse FileReadState.absent = Except.ok none
    ∧ Cfg.load_toml_file parse FileReadState.unreadable = Except.ok none
    ∧ (∀ s t, parse s = Except.ok t →
        Cfg.load_toml_file parse (FileReadState.content s)
          = Except.ok (some (Value.table t)))
    ∧ (∀ s e, parse s = Except.error e →
        Cfg.load_toml_file parse (FileReadState.content s)
          = Except.error (SupError.TomlParser e))
    ∧ (∀ s e uf env, parse s = Except.error e →
        Cfg.newFromFiles parse (FileReadState.content s) uf env
          = Except.error (SupError.TomlParser e)) := by
  refine ⟨rfl, rfl, ?_, ?_, ?_⟩
  · intro s t h
    simp [Cfg.load_toml_file, h]
  · intro s e h
    simp [Cfg.load_toml_file, h]
  · intro s e uf env h
    simp [Cfg.newFromFiles, Cfg.load_toml_file, h]

/-- Witness for C8: a failing parser fails the layer load and the whole
construction with `TomlParser`. -/
theorem spec_c8_witness :
    Cfg.load_toml_file parseErrEx (FileReadState.content "x=")
      = Except.error (SupError.TomlParser "boom")
    ∧ Cfg.newFromFiles parseErrEx (FileReadState.content "x=") FileReadState.absent
        (Except.ok none) = Except.error (SupError.TomlParser "boom") :=
  ⟨(spec_c8_amended parseErrEx).2.2.2.1 "x=" "boom" rfl,
   (spec_c8_amended parseErrEx).2.2.2.2 "x=" "boom" FileReadState.absent
     (Except.ok none) rfl⟩

/-- Counterexample for C8 as stated: a read error occurring after the
file was successfully opened does NOT propagate as a construction-time
error — `load_toml_file` returns `Ok(None)`, silently dropping the
layer. -/
theorem spec_c8_counterexample :
    Cfg.load_toml_file parseOkEx FileReadState.unreadable = Except.ok none :=
  rfl

/-- C6: merging fails — with the `TomlMergeError` carrying the bound 30
— exactly when it would have to recurse into shared nested tables past
`TOML_MAX_MERGE_DEPTH`; within the bound this error cannot occur.  The
embedding is a total function, so no panic or overflow is possible. -/
theorem spec_c6 (me other : Table) (hwf : tableWF other = true) :
    (sharedDepth me other ≤ TOML_MAX_MERGE_DEPTH → (toml_merge me other).2 = none)
    ∧ (TOML_MAX_MERGE_DEPTH < sharedDepth me other →
        (toml_merge me other).2 = some (SupError.TomlMergeError mergeDepthMsg)) := by
  have h := merge_error_iff me other 0 hwf
  constructor
  · intro hle
    rw [toml_merge, h, if_neg (by omega)]
  · intro hlt
    rw [toml_merge, h, if_pos (by omega)]

/-- Witness for C6: two 31-deep shared chains fail with the depth error,
two 30-deep shared chains merge cleanly. -/
theorem spec_c6_witness :
    tableWF (tchain 31) = true
    ∧ (toml_merge (tchain 31) (tchain 31)).2
        = some (SupError.TomlMergeError mergeDepthMsg)
    ∧ (toml_merge (tchain 30) (tchain 30)).2 = none := by
  refine ⟨tchain_wf 31, ?_, ?_⟩
  · apply (spec_c6 (tchain 31) (tchain 31) (tchain_wf 31)).2
    rw [sharedDepth_tchain]
    decide
  · apply (spec_c6 (tchain 30) (tchain 30) (tchain_wf 30)).1
    rw [sharedDepth_tchain]
    decide

/-- C3: for a well-formed overlay and documents nested within the depth
bound, the merge is overlay-wins-per-key: a key absent from the overlay
keeps its base value; a key at which both sides hold tables is merged
recursively; at any other overlay key (arrays included, and regardless
of a table/scalar type mismatch) the overlay value fully replaces the
base value. -/
theorem spec_c3 (me other : Table) (hwf : tableWF other = true)
    (_hme : tableDepth me ≤ TOML_MAX_MERGE_DEPTH)
    (hother : tableDepth other ≤ TOML_MAX_MERGE_DEPTH) (k : String) :
    assocGet k (toml_merge me other).1 =
      (match assocGet k other, assocGet k me with
       | some (Value.table ot), some (Value.table mt) =>
         some (Value.table (toml_merge_recurse mt ot (0 + 1)).1)
       | some ov, _ => some ov
       | none, _ => assocGet k me) := by
  have hok : (toml_merge_recurse me other 0).2 = none := by
    rw [merge_error_iff me other 0 hwf, if_neg]
    have := sharedDepth_le_tableDepth me other
    omega
  rw [toml_merge]
  exact merge_get me other 0 hwf hok k

/-- Witness for C3 at concrete documents: the overlay scalar replaces
the base array wholesale. -/
theorem spec_c3_witness :
    tableWF exMergeOther = true
    ∧ assocGet "arr" (toml_merge exMergeMe exMergeOther).1 = some (Value.integer 5) := by
  refine ⟨by simp [exMergeOther, tableWF, valueWF], ?_⟩
  have h := spec_c3 exMergeMe exMergeOther
    (by simp [exMergeOther, tableWF, valueWF])
    (by simp [exMergeMe, tableDepth, valueDepth, TOML_MAX_MERGE_DEPTH])
    (by simp [exMergeOther, tableDepth, valueDepth, TOML_MAX_MERGE_DEPTH])
    "arr"
  exact h.trans (by rfl)

/-- The merge phase over four table-valued layers is the fold of
`toml_merge` in order default, environment, user, gossip. -/
theorem mergedTable_layers (dT eT uT gT : Table) (n : Nat) :
    Cfg.mergedTable
      { default := some (Value.table dT), environment := some (Value.table eT),
        user := some (Value.table uT), gossip := some (Value.table gT),
        gossip_incarnation := n }
      = (toml_merge (toml_merge (toml_merge (toml_merge [] dT).1 eT).1 uT).1 gT).1 := by
  unfold Cfg.mergedTable Cfg.serializeMergePhase
  rw [mergeLayerStep_table, mergeLayerStep_table, mergeLayerStep_table, mergeLayerStep_table]

/-- C1: the merged view is built from an empty table by merging the
layers in order default, environment, user, gossip, later layers
overriding earlier ones; for flat well-formed layers every key reads as
the first hit in the order gossip, user, environment, default; and on
the specification's example the merged result is `{a=5, b=4}`. -/
theorem spec_c1 :
    (∀ (dT eT uT gT : Table) (n : Nat),
      flatUnique dT = true → flatUnique eT = true → flatUnique uT = true →
      flatUnique gT = true → ∀ k,
      assocGet k (Cfg.mergedTable
        { default := some (Value.table dT), environment := some (Value.table eT),
          user := some (Value.table uT), gossip := some (Value.table gT),
          gossip_incarnation := n })
        = ((assocGet k gT).or ((assocGet k uT).or ((assocGet k eT).or (assocGet k dT)))))
    ∧ Cfg.mergedTable exC1 = [("a", Value.integer 5), ("b", Value.integer 4)] := by
  constructor
  · intro dT eT uT gT n hd he hu hg k
    rw [mergedTable_layers]
    rw [merge_flat_get _ gT hg, merge_flat_get _ uT hu, merge_flat_get _ eT he,
      merge_flat_get _ dT hd]
    cases assocGet k dT <;> simp [assocGet, Option.or]
  · simp [Cfg.mergedTable, Cfg.serializeMergePhase, exC1, mergeLayerStep, toml_merge,
      toml_merge_recurse.eq_def, assocGet, assocInsert, TOML_MAX_MERGE_DEPTH]

/-- Witness for C1 at the specification's example layers. -/
theorem spec_c1_witness :
    flatUnique [("a", Value.integer 1), ("b", Value.integer 2)] = true
    ∧ assocGet "a" (Cfg.mergedTable exC1) = some (Value.integer 5)
    ∧ assocGet "b" (Cfg.mergedTable exC1) = some (Value.integer 4) := by
  refine ⟨?_, ?_, ?_⟩
  · simp [flatUnique, flatTable, tableWF, valueWF, Value.is_table]
  · have h := spec_c1.1
      [("a", Value.integer 1), ("b", Value.integer 2)] [("a", Value.integer 3)]
      [("b", Value.integer 4)] [("a", Value.integer 5)] 0
      (by simp [flatUnique, flatTable, tableWF, valueWF, Value.is_table])
      (by simp [flatUnique, flatTable, tableWF, valueWF, Value.is_table])
      (by simp [flatUnique, flatTable, tableWF, valueWF, Value.is_table])
      (by simp [flatUnique, flatTable, tableWF, valueWF, Value.is_table])
      "a"
    exact h.trans (by rfl)
  · have h := spec_c1.1
      [("a", Value.integer 1), ("b", Value.integer 2)] [("a", Value.integer 3)]
      [("b", Value.integer 4)] [("a", Value.integer 5)] 0
      (by simp [flatUnique, flatTable, tableWF, valueWF, Value.is_table])
      (by simp [flatUnique, flatTable, tableWF, valueWF, Value.is_table])
      (by simp [flatUnique, flatTable, tableWF, valueWF, Value.is_table])
      (by simp [flatUnique, flatTable, tableWF, valueWF, Value.is_table])
      "b"
    exact h.trans (by rfl)

/-- C7 (amended): `to_exported` includes a declaration exactly when the
sticky walk resolves — segments are tried left to right, the cursor
advancing only on successful lookups, and inclusion is decided by the
final segment alone; full sequential resolution of every segment still
guarantees inclusion with the resolved value. -/
theorem spec_c7_amended (cfg : Cfg) (pkg : Pkg) :
    Cfg.to_exported cfg pkg
      = Except.ok (exportedSpec (Value.table (Cfg.serializeOut cfg)) pkg.exports)
    ∧ (∀ (v w : Value) (fields : List String), fields ≠ [] →
        resolvePath v fields = some w → stickyResolve v fields = some w) :=
  ⟨to_exported_spec cfg pkg,
   fun v w fields hne h => sticky_of_resolve fields v w hne h⟩

/-- Witness for C7: a fully resolvable `server.database` path sticks to
its resolved value. -/
theorem spec_c7_witness :
    stickyResolve exPathVal ["server", "database"] = some (Value.integer 1) :=
  (spec_c7_amended exExport pkgExport).2 exPathVal (Value.integer 1)
    ["server", "database"] (by simp) rfl

/-- Counterexample for C7 as stated: with export declaration
`db ↦ server.database` and a merged document with no `server` table but
a top-level `database` key, the path does not fully resolve, yet the
pair IS included — the failed `server` segment leaves the cursor at the
root and the final `database` segment resolves there. -/
theorem spec_c7_counterexample :
    Cfg.to_exported exExport pkgExport = Except.ok [("db", Value.integer 42)]
    ∧ resolvePath (Value.table (Cfg.serializeOut exExport))
        (splitChar '.' "server.database") = none := by
  have hs : Cfg.serializeOut exExport = [("database", Value.integer 42)] := by
    simp [Cfg.serializeOut, bucketize, Cfg.mergedTable, Cfg.serializeMergePhase, exExport,
      mergeLayerStep, toml_merge, toml_merge_recurse.eq_def, assocGet, assocInsert,
      TOML_MAX_MERGE_DEPTH, Value.is_array, Value.is_table]
  constructor
  · unfold Cfg.to_exported
    rw [hs]
    rfl
  · rw [hs]
    rfl

/-- C5 (amended): the serialization path bucket-reorders only at the
top level — scalars, then arrays, then tables, each bucket preserving
the merged table's key order (the emitted list is the three filters in
sequence, a permutation of the merged table with weakly increasing
ranks) — while values, nested tables included, are emitted verbatim;
the specification's `{t, s, arr}` example serializes as `s, arr, t`. -/
theorem spec_c5_amended (cfg : Cfg) :
    Cfg.serializeOut cfg
      = (Cfg.mergedTable cfg).filter
            (fun kv => !(Value.is_array kv.2) && !(Value.is_table kv.2))
        ++ (Cfg.mergedTable cfg).filter (fun kv => Value.is_array kv.2)
        ++ (Cfg.mergedTable cfg).filter (fun kv => Value.is_table kv.2)
    ∧ List.Sorted (· ≤ ·) ((Cfg.serializeOut cfg).map (fun kv => classRank kv.2))
    ∧ (Cfg.serializeOut cfg).Perm (Cfg.mergedTable cfg)
    ∧ Cfg.serializeOut exBucket
        = [("s", Value.integer 2), ("arr", Value.array [Value.integer 3]),
           ("t", Value.table [("k", Value.integer 1)])] := by
  refine ⟨rfl, bucketize_sorted _, bucketize_perm _, ?_⟩
  simp [Cfg.serializeOut, bucketize, Cfg.mergedTable, Cfg.serializeMergePhase, exBucket,
    mergeLayerStep, toml_merge, toml_merge_recurse.eq_def, assocGet, assocInsert,
    TOML_MAX_MERGE_DEPTH, Value.is_array, Value.is_table]

/-- Counterexample for C5 as stated: the claimed recursive bucketing
does not happen — a nested table whose own key order puts a
table-valued key before a scalar-valued key is emitted in that order,
so the emitted output is not recursively bucket-ordered. -/
theorem spec_c5_counterexample :
    (Cfg.serializeOut exNested).all (fun kv => deepBucketedV kv.2) = false := by
  have hs : Cfg.serializeOut exNested
      = [("outer", Value.table
          [("a", Value.table [("k", Value.integer 1)]), ("b", Value.integer 2)])] := by
    simp [Cfg.serializeOut, bucketize, Cfg.mergedTable, Cfg.serializeMergePhase, exNested,
      mergeLayerStep, toml_merge, toml_merge_recurse.eq_def, assocGet, assocInsert,
      TOML_MAX_MERGE_DEPTH, Value.is_array, Value.is_table]
  rw [hs]
  simp [deepBucketedV, deepBucketedT, ranksSortedB, classRank, Value.is_table,
    Value.is_array]

/-- C4: in a compile pass each template's destination is rewritten
(fully overwritten) exactly when its hash differs from the rendered
text's hash — a missing destination hashing to the empty sentinel and
forcing the write; `changed` is the OR across templates; consequently a
second pass over unchanged context and files writes nothing and
reports `changed = false`. -/
theorem spec_c4 (r : TemplateRenderer) (pkg : Pkg) (ctx : RenderContext)
    (fs fs' : FileSystem) (changed : Bool)
    (hnd : List.Nodup r.templates)
    (h : CfgRenderer.compile r pkg ctx fs = Except.ok (fs', changed)) :
    CfgRenderer.compile r pkg ctx fs' = Except.ok (fs', false)
    ∧ (changed = true ↔ ∃ t ∈ r.templates, ∃ txt, r.render t ctx = Except.ok txt ∧
        assocGet (cfgDest pkg t) fs ≠ some txt)
    ∧ (changed = false → fs' = fs)
    ∧ (∀ t ∈ r.templates, ∃ txt, r.render t ctx = Except.ok txt ∧
        assocGet (cfgDest pkg t) fs' = some txt) := by
  unfold CfgRenderer.compile at h ⊢
  have hdest := compileLoop_dest r.render pkg ctx r.templates hnd fs false fs' changed h
  refine ⟨?_, ?_, ?_, hdest⟩
  · exact compileLoop_skip_all r.render pkg ctx r.templates fs' false hdest
  · have hch := compileLoop_changed r.render pkg ctx r.templates hnd fs false fs' changed h
    rw [hch]
    simp
  · intro hch
    rw [hch] at h
    exact (compileLoop_nochange r.render pkg ctx r.templates fs false fs' h).1

/-- Witness for C4: a fresh two-template pass writes both files and
reports changed; the immediate second pass writes nothing and reports
unchanged. -/
theorem spec_c4_witness :
    List.Nodup exRenderer.templates
    ∧ CfgRenderer.compile exRenderer exPkg [] [] = Except.ok (exFs1, true)
    ∧ CfgRenderer.compile exRenderer exPkg [] exFs1 = Except.ok (exFs1, false) := by
  refine ⟨by decide, rfl, ?_⟩
  exact (spec_c4 exRenderer exPkg [] [] exFs1 true (by decide) rfl).1

/-- Merging a one-entry table into the empty table appends the entry. -/
theorem merge_nil_single (k : String) (v : Value) :
    toml_merge [] [(k, v)] = ([(k, v)], none) := by
  rw [toml_merge, toml_merge_recurse.eq_def]
  cases v <;>
    simp [TOML_MAX_MERGE_DEPTH, assocGet, assocInsert, toml_merge_recurse.eq_def]

/-- One merge-phase step at a table-valued layer, with the full pair. -/
theorem mergeLayerStep_pair (t : Table) (errs : List SupError) (l : Table) :
    mergeLayerStep (t, errs) (some (Value.table l))
      = ((toml_merge t l).1,
         errs ++ (match (toml_merge t l).2 with | some e => [e] | none => [])) := by
  rcases hm : toml_merge t l with ⟨tm, e⟩
  cases e <;> simp [mergeLayerStep, hm]

/-- C9: `Cfg::serialize` never surfaces a merge error — the emitted
output is always the bucket pass over whatever the merge phase
produced, the errors being merely logged.  On a configuration whose
user layer shares a 31-deep table chain with the default layer, the
user-layer merge fails the depth guard after applying the keys before
the failing one (`x`) and dropping those after it (`y`), one error is
logged, and serialization proceeds with the gossip layer (`g`) applied
on top of the partial result. -/
theorem spec_c9 :
    (∀ cfg : Cfg, Cfg.serializeOut cfg = bucketize (Cfg.serializeMergePhase cfg).1)
    ∧ (Cfg.serializeMergePhase exDeep).2 = [SupError.TomlMergeError mergeDepthMsg]
    ∧ assocGet "x" (Cfg.serializeMergePhase exDeep).1 = some (Value.integer 3)
    ∧ assocGet "y" (Cfg.serializeMergePhase exDeep).1 = none
    ∧ assocGet "g" (Cfg.serializeMergePhase exDeep).1 = some (Value.integer 5) := by
  have herr : toml_merge_recurse (tchain 30) (tchain 30) 1
      = ((toml_merge_recurse (tchain 30) (tchain 30) 1).1,
         some (SupError.TomlMergeError mergeDepthMsg)) := by
    have h2 := merge_error_iff (tchain 30) (tchain 30) 1 (tchain_wf 30)
    rw [sharedDepth_tchain, if_pos (by decide)] at h2
    nth_rewrite 1 [← @Prod.mk.eta _ _ (toml_merge_recurse (tchain 30) (tchain 30) 1)]
    rw [h2]
  have huser : toml_merge (tchain 31)
      [("x", Value.integer 3), ("a", Value.table (tchain 30)), ("y", Value.integer 4)]
      = ([("a", Value.table ((toml_merge_recurse (tchain 30) (tchain 30) 1).1)),
          ("x", Value.integer 3)],
         some (SupError.TomlMergeError mergeDepthMsg)) := by
    rw [toml_merge, show tchain 31 = [("a", Value.table (tchain 30))] from rfl]
    rw [merge_cons_else [("a", Value.table (tchain 30))]
      [("a", Value.table (tchain 30)), ("y", Value.integer 4)] 0 "x" (Value.integer 3)
      (by decide) (fun mk ot hg he => by cases he)]
    rw [show assocInsert "x" (Value.integer 3) [("a", Value.table (tchain 30))]
        = [("a", Value.table (tchain 30)), ("x", Value.integer 3)] from by
      simp [assocInsert]]
    rw [merge_cons_tables [("a", Value.table (tchain 30)), ("x", Value.integer 3)]
      [("y", Value.integer 4)] 0 "a" (tchain 30) (tchain 30)
      ((toml_merge_recurse (tchain 30) (tchain 30) 1).1)
      (SupError.TomlMergeError mergeDepthMsg)
      (by decide) (by simp [assocGet]) herr]
    rw [show assocInsert "a"
        (Value.table ((toml_merge_recurse (tchain 30) (tchain 30) 1).1))
        [("a", Value.table (tchain 30)), ("x", Value.integer 3)]
        = [("a", Value.table ((toml_merge_recurse (tchain 30) (tchain 30) 1).1)),
           ("x", Value.integer 3)] from by
      simp [assocInsert]]
  have hnil : toml_merge [] (tchain 31) = (tchain 31, none) := by
    rw [show tchain 31 = [("a", Value.table (tchain 30))] from rfl]
    exact merge_nil_single "a" (Value.table (tchain 30))
  have hgok : (toml_merge
      [("a", Value.table ((toml_merge_recurse (tchain 30) (tchain 30) 1).1)),
       ("x", Value.integer 3)]
      [("g", Value.integer 5)]).2 = none := by
    rw [toml_merge, merge_error_iff _ _ 0 (by simp [tableWF, valueWF])]
    rw [if_neg]
    have hsd := sharedDepth_le_tableDepth
      [("a", Value.table ((toml_merge_recurse (tchain 30) (tchain 30) 1).1)),
       ("x", Value.integer 3)]
      [("g", Value.integer 5)]
    have htd : tableDepth [("g", Value.integer 5)] = 0 := by
      simp [tableDepth, valueDepth]
    omega
  have hs1 : mergeLayerStep ([], []) (some (Value.table (tchain 31)))
      = (tchain 31, []) := by
    rw [mergeLayerStep_pair [] [] (tchain 31), hnil]
    rfl
  have hs3 : mergeLayerStep (tchain 31, [])
      (some (Value.table
        [("x", Value.integer 3), ("a", Value.table (tchain 30)), ("y", Value.integer 4)]))
      = ([("a", Value.table ((toml_merge_recurse (tchain 30) (tchain 30) 1).1)),
          ("x", Value.integer 3)],
         [SupError.TomlMergeError mergeDepthMsg]) := by
    rw [mergeLayerStep_pair (tchain 31) []
      [("x", Value.integer 3), ("a", Value.table (tchain 30)), ("y", Value.integer 4)],
      huser]
    rfl
  have hs4 : mergeLayerStep
      ([("a", Value.table ((toml_merge_recurse (tchain 30) (tchain 30) 1).1)),
        ("x", Value.integer 3)],
       [SupError.TomlMergeError mergeDepthMsg])
      (some (Value.table [("g", Value.integer 5)]))
      = ((toml_merge
            [("a", Value.table ((toml_merge_recurse (tchain 30) (tchain 30) 1).1)),
             ("x", Value.integer 3)]
            [("g", Value.integer 5)]).1,
         [SupError.TomlMergeError mergeDepthMsg]) := by
    rw [mergeLayerStep_pair
      [("a", Value.table ((toml_merge_recurse (tchain 30) (tchain 30) 1).1)),
       ("x", Value.integer 3)]
      [SupError.TomlMergeError mergeDepthMsg]
      [("g", Value.integer 5)], hgok]
    rfl
  have hphase : Cfg.serializeMergePhase exDeep
      = ((toml_merge
            [("a", Value.table ((toml_merge_recurse (tchain 30) (tchain 30) 1).1)),
             ("x", Value.integer 3)]
            [("g", Value.integer 5)]).1,
         [SupError.TomlMergeError mergeDepthMsg]) := by
    unfold Cfg.serializeMergePhase
    rw [show exDeep.default = some (Value.table (tchain 31)) from rfl,
      show exDeep.environment = (none : Option Value) from rfl,
      show exDeep.user = some (Value.table
        [("x", Value.integer 3), ("a", Value.table (tchain 30)),
         ("y", Value.integer 4)]) from rfl,
      show exDeep.gossip = some (Value.table [("g", Value.integer 5)]) from rfl]
    rw [hs1]
    rw [show mergeLayerStep (tchain 31, []) none = (tchain 31, []) from rfl]
    rw [hs3, hs4]
  have hflatG : flatUnique [("g", Value.integer 5)] = true := by
    simp [flatUnique, flatTable, tableWF, valueWF, Value.is_table]
  refine ⟨fun cfg => rfl, ?_, ?_, ?_, ?_⟩
  · rw [hphase]
  · rw [hphase]
    rw [merge_flat_get _ _ hflatG "x"]
    simp [assocGet, Option.or]
  · rw [hphase]
    rw [merge_flat_get _ _ hflatG "y"]
    simp [assocGet, Option.or]
  · rw [hphase]
    rw [merge_flat_get _ _ hflatG "g"]
    simp [assocGet, Option.or]

end Habitat

